import Mathlib

/-!
Verification of the serverless-s3-sync plugin (index.js, resolveStackOutput.js,
getAwsOptions.js). The development shallowly embeds the data manipulated by the
plugin:

* S3 tag sets and JavaScript property objects are both insertion-ordered lists
  of key/value pairs (`Obj = List Tag`). `ServerlessS3Sync.mergeTags` mutates
  the existing tag set by overwriting the first entry with a matching key or
  pushing a fresh entry at the end; one key of a JavaScript `Object.assign`
  does exactly the same, so a single `mergeOne` step models both.
* glob matching (the external `minimatch` library) is abstracted as a boolean
  `Matcher` applied to the local file path and to the full pattern the code
  builds (`path.resolve(localDir) + '/' + glob`); both the upload phase and
  the metadata phase build the same pattern from the same rule, so the two
  phases are compared with one and the same matcher. (`minimatch.match` is a
  filter by that predicate; its `matchBase` option is inert here because the
  pattern always contains a slash.)
* asynchronous calls are modeled by their data flow: `getBucketName` threads a
  counter of `describeStacks` calls, and the per-target phase bodies return an
  `Except` describing either the thrown configuration error or the list of
  operations the phase issues for that target.
-/

namespace S3Sync

/-- One entry of an S3 TagSet (a Key/Value pair). The same structure models one
property of a JavaScript object, read in insertion order. -/
structure Tag where
  key : String
  value : String
deriving DecidableEq, Repr

/-- A JavaScript object / an S3 TagSet: insertion-ordered key/value entries. -/
abbrev Obj := List Tag

/-- Property read `obj[k]`: the first entry with the given key. On the objects
the plugin builds, keys are unique, so first is the only occurrence. -/
def lookupFirst (l : Obj) (k : String) : Option String :=
  match l with
  | [] => none
  | t :: rest => if t.key = k then some t.value else lookupFirst rest k

/-- The value of the last entry carrying the given key, if any. -/
def lookupLast (l : Obj) (k : String) : Option String :=
  match l with
  | [] => none
  | t :: rest =>
    match lookupLast rest k with
    | some v => some v
    | none => if t.key = k then some t.value else none

/-- Whether some entry carries the given key. -/
def hasKey (l : Obj) (k : String) : Bool :=
  l.any (fun t => t.key = k)

/-- Set the value of the first entry whose key equals `t.key` (the effect of
`existingTag.Value = tag.Value` after `existingTagSet.find(...)` succeeds). -/
def updateFirst (l : Obj) (t : Tag) : Obj :=
  match l with
  | [] => []
  | e :: rest =>
    if e.key = t.key then Tag.mk e.key t.value :: rest else e :: updateFirst rest t

/-- One iteration of `ServerlessS3Sync.mergeTags`: overwrite the first entry
with the same key, otherwise push the tag at the end. This is also the
semantics of copying one key in a JavaScript `Object.assign`. -/
def mergeOne (l : Obj) (t : Tag) : Obj :=
  if hasKey l t.key then updateFirst l t else l ++ [t]

/-- `ServerlessS3Sync.mergeTags(existingTagSet, tagsToMerge)`, functionally:
the in-place mutation of `existingTagSet` returned as a value. -/
def mergeTags (existingTagSet tagsToMerge : Obj) : Obj :=
  tagsToMerge.foldl mergeOne existingTagSet

/-- `delete obj[k]` (keys are unique in the objects the plugin builds, so
removing every occurrence agrees with deleting the property). -/
def removeKey (l : Obj) (k : String) : Obj :=
  l.filter (fun t => t.key != k)

/-- Repeated `updateFirst`, i.e. `mergeTags` when every key is already
present and no entry ever gets pushed. -/
def updAll (l : Obj) (d : Obj) : Obj :=
  d.foldl updateFirst l

/-! Unfolding lemmas. -/

theorem updateFirst_cons_pos (e : Tag) (rest : Obj) (t : Tag) (h : e.key = t.key) :
    updateFirst (e :: rest) t = Tag.mk e.key t.value :: rest := by
  simp only [updateFirst]
  rw [if_pos h]

theorem updateFirst_cons_neg (e : Tag) (rest : Obj) (t : Tag) (h : ¬ e.key = t.key) :
    updateFirst (e :: rest) t = e :: updateFirst rest t := by
  simp only [updateFirst]
  rw [if_neg h]

theorem lookupFirst_cons_pos (e : Tag) (rest : Obj) (k : String) (h : e.key = k) :
    lookupFirst (e :: rest) k = some e.value := by
  simp only [lookupFirst]
  rw [if_pos h]

theorem lookupFirst_cons_neg (e : Tag) (rest : Obj) (k : String) (h : ¬ e.key = k) :
    lookupFirst (e :: rest) k = lookupFirst rest k := by
  simp only [lookupFirst]
  rw [if_neg h]

theorem hasKey_cons (e : Tag) (rest : Obj) (k : String) :
    hasKey (e :: rest) k = (decide (e.key = k) || hasKey rest k) := rfl

theorem hasKey_cons_key (e : Tag) (rest : Obj) :
    hasKey (e :: rest) e.key = true := by
  rw [hasKey_cons]
  simp

theorem hasKey_nil (k : String) : hasKey [] k = false := rfl

theorem hasKey_cons_false (e : Tag) (rest : Obj) (k : String)
    (h : hasKey (e :: rest) k = false) :
    ¬ e.key = k ∧ hasKey rest k = false := by
  rw [hasKey_cons] at h
  constructor
  · intro hc
    simp [hc] at h
  · exact (Bool.or_eq_false_iff.mp h).2

/-! Basic lemmas about the key/value algebra. -/

theorem hasKey_updateFirst (l : Obj) (t : Tag) (k : String) :
    hasKey (updateFirst l t) k = hasKey l k := by
  induction l with
  | nil => rfl
  | cons e rest ih =>
    by_cases h : e.key = t.key
    · rw [updateFirst_cons_pos e rest t h, hasKey_cons, hasKey_cons]
    · rw [updateFirst_cons_neg e rest t h, hasKey_cons, hasKey_cons, ih]

theorem keys_updateFirst (l : Obj) (t : Tag) :
    (updateFirst l t).map Tag.key = l.map Tag.key := by
  induction l with
  | nil => rfl
  | cons e rest ih =>
    by_cases h : e.key = t.key
    · rw [updateFirst_cons_pos e rest t h]
      simp
    · rw [updateFirst_cons_neg e rest t h]
      simp [ih]

theorem hasKey_append (l₁ l₂ : Obj) (k : String) :
    hasKey (l₁ ++ l₂) k = (hasKey l₁ k || hasKey l₂ k) := by
  simp [hasKey, List.any_append]

theorem hasKey_mergeOne_self (l : Obj) (t : Tag) :
    hasKey (mergeOne l t) t.key = true := by
  unfold mergeOne
  by_cases h : hasKey l t.key = true
  · rw [if_pos h, hasKey_updateFirst]
    exact h
  · rw [if_neg h, hasKey_append]
    have : hasKey [t] t.key = true := hasKey_cons_key t []
    rw [this, Bool.or_true]

theorem hasKey_mergeOne_of (l : Obj) (t : Tag) (k : String)
    (h : hasKey l k = true) : hasKey (mergeOne l t) k = true := by
  unfold mergeOne
  by_cases hk : hasKey l t.key = true
  · rw [if_pos hk, hasKey_updateFirst]
    exact h
  · rw [if_neg hk, hasKey_append, h, Bool.true_or]

theorem hasKey_mergeTags_of (l d : Obj) (k : String)
    (h : hasKey l k = true) : hasKey (mergeTags l d) k = true := by
  induction d generalizing l with
  | nil => exact h
  | cons t rest ih => exact ih (mergeOne l t) (hasKey_mergeOne_of l t k h)

theorem hasKey_mergeTags_mem (l d : Obj) (t : Tag) (h : t ∈ d) :
    hasKey (mergeTags l d) t.key = true := by
  induction d generalizing l with
  | nil => cases h
  | cons s rest ih =>
    rcases List.mem_cons.mp h with h | h
    · subst h
      exact hasKey_mergeTags_of (mergeOne l t) rest t.key (hasKey_mergeOne_self l t)
    · exact ih (mergeOne l s) h

theorem mergeTags_eq_updAll (l d : Obj)
    (h : ∀ t ∈ d, hasKey l t.key = true) : mergeTags l d = updAll l d := by
  induction d generalizing l with
  | nil => rfl
  | cons t rest ih =>
    have ht : hasKey l t.key = true := h t (by simp)
    have step : mergeOne l t = updateFirst l t := by
      unfold mergeOne
      rw [if_pos ht]
    have hrest : ∀ s ∈ rest, hasKey (updateFirst l t) s.key = true := by
      intro s hs
      rw [hasKey_updateFirst]
      exact h s (by simp [hs])
    calc mergeTags l (t :: rest) = mergeTags (mergeOne l t) rest := rfl
      _ = mergeTags (updateFirst l t) rest := by rw [step]
      _ = updAll (updateFirst l t) rest := ih _ hrest
      _ = updAll l (t :: rest) := rfl

theorem updateFirst_absorb (l : Obj) (s t : Tag) (h : s.key = t.key) :
    updateFirst (updateFirst l s) t = updateFirst l t := by
  induction l with
  | nil => rfl
  | cons e rest ih =>
    by_cases he : e.key = s.key
    · have het : e.key = t.key := he.trans h
      rw [updateFirst_cons_pos e rest s he,
        updateFirst_cons_pos (Tag.mk e.key s.value) rest t het,
        updateFirst_cons_pos e rest t het]
    · have het : ¬ e.key = t.key := fun hc => he (hc.trans h.symm)
      rw [updateFirst_cons_neg e rest s he,
        updateFirst_cons_neg e (updateFirst rest s) t het,
        updateFirst_cons_neg e rest t het, ih]

theorem updateFirst_comm (l : Obj) (s t : Tag) (h : s.key ≠ t.key) :
    updateFirst (updateFirst l s) t = updateFirst (updateFirst l t) s := by
  induction l with
  | nil => rfl
  | cons e rest ih =>
    by_cases hes : e.key = s.key
    · have het : ¬ e.key = t.key := fun hc => h (hes.symm.trans hc)
      rw [updateFirst_cons_pos e rest s hes,
        updateFirst_cons_neg (Tag.mk e.key s.value) rest t het,
        updateFirst_cons_neg e rest t het,
        updateFirst_cons_pos e (updateFirst rest t) s hes]
    · by_cases het : e.key = t.key
      · have hets : ¬ e.key = s.key := hes
        rw [updateFirst_cons_neg e rest s hes,
          updateFirst_cons_pos e (updateFirst rest s) t het,
          updateFirst_cons_pos e rest t het,
          updateFirst_cons_neg (Tag.mk e.key t.value) rest s hets]
      · rw [updateFirst_cons_neg e rest s hes,
          updateFirst_cons_neg e (updateFirst rest s) t het,
          updateFirst_cons_neg e rest t het,
          updateFirst_cons_neg e (updateFirst rest t) s hes, ih]

theorem updAll_nil (l : Obj) : updAll l [] = l := rfl

theorem updAll_cons (l : Obj) (t : Tag) (rest : Obj) :
    updAll l (t :: rest) = updAll (updateFirst l t) rest := rfl

theorem updAll_updateFirst_cancel (d : Obj) (l : Obj) (t : Tag)
    (h : hasKey d t.key = true) :
    updAll (updateFirst l t) d = updAll l d := by
  induction d generalizing l with
  | nil => exact absurd h (by simp [hasKey])
  | cons s rest ih =>
    by_cases hs : s.key = t.key
    · rw [updAll_cons, updAll_cons, updateFirst_absorb l t s hs.symm]
    · have hrest : hasKey rest t.key = true := by
        rw [hasKey_cons] at h
        rcases Bool.or_eq_true_iff.mp h with h | h
        · exact absurd (of_decide_eq_true h) hs
        · exact h
      rw [updAll_cons, updAll_cons,
        updateFirst_comm l t s (fun hc => hs hc.symm)]
      exact ih (updateFirst l s) hrest

theorem lookupFirst_updateFirst (l : Obj) (t : Tag) (k : String)
    (h : hasKey l t.key = true) :
    lookupFirst (updateFirst l t) k =
      if t.key = k then some t.value else lookupFirst l k := by
  induction l with
  | nil => exact absurd h (by simp [hasKey])
  | cons e rest ih =>
    by_cases he : e.key = t.key
    · rw [updateFirst_cons_pos e rest t he]
      by_cases hk : t.key = k
      · rw [if_pos hk, lookupFirst_cons_pos (Tag.mk e.key t.value) rest k (he.trans hk)]
      · have hek : ¬ e.key = k := fun hc => hk (he.symm.trans hc)
        rw [if_neg hk, lookupFirst_cons_neg (Tag.mk e.key t.value) rest k hek,
          lookupFirst_cons_neg e rest k hek]
    · have hr : hasKey rest t.key = true := by
        rw [hasKey_cons] at h
        rcases Bool.or_eq_true_iff.mp h with h | h
        · exact absurd (of_decide_eq_true h) he
        · exact h
      rw [updateFirst_cons_neg e rest t he]
      by_cases hek : e.key = k
      · have htk : ¬ t.key = k := fun hc => he (hek.trans hc.symm)
        rw [if_neg htk, lookupFirst_cons_pos e (updateFirst rest t) k hek,
          lookupFirst_cons_pos e rest k hek]
      · rw [lookupFirst_cons_neg e (updateFirst rest t) k hek,
          lookupFirst_cons_neg e rest k hek, ih hr]

theorem lookupFirst_append_of_not_hasKey (l : Obj) (t : Tag) (k : String)
    (h : hasKey l t.key = false) :
    lookupFirst (l ++ [t]) k =
      if t.key = k then some t.value else lookupFirst l k := by
  induction l with
  | nil =>
    by_cases hk : t.key = k
    · rw [if_pos hk]
      exact lookupFirst_cons_pos t [] k hk
    · rw [if_neg hk]
      exact lookupFirst_cons_neg t [] k hk
  | cons e rest ih =>
    obtain ⟨he, hr⟩ := hasKey_cons_false e rest t.key h
    by_cases hek : e.key = k
    · have htk : ¬ t.key = k := fun hc => he (hek.trans hc.symm)
      rw [if_neg htk, List.cons_append, lookupFirst_cons_pos e (rest ++ [t]) k hek,
        lookupFirst_cons_pos e rest k hek]
    · rw [List.cons_append, lookupFirst_cons_neg e (rest ++ [t]) k hek,
        lookupFirst_cons_neg e rest k hek, ih hr]

theorem lookupFirst_mergeOne (l : Obj) (t : Tag) (k : String) :
    lookupFirst (mergeOne l t) k =
      if t.key = k then some t.value else lookupFirst l k := by
  unfold mergeOne
  by_cases h : hasKey l t.key = true
  · rw [if_pos h]
    exact lookupFirst_updateFirst l t k h
  · rw [if_neg h]
    exact lookupFirst_append_of_not_hasKey l t k (eq_false_of_ne_true h)

theorem lookupFirst_mergeTags (a b : Obj) (k : String) :
    lookupFirst (mergeTags a b) k =
      match lookupLast b k with
      | some v => some v
      | none => lookupFirst a k := by
  induction b generalizing a with
  | nil => rfl
  | cons t rest ih =>
    have hstep : mergeTags a (t :: rest) = mergeTags (mergeOne a t) rest := rfl
    rw [hstep, ih (mergeOne a t)]
    rcases hr : lookupLast rest k with _ | v
    · simp only [lookupLast, hr, lookupFirst_mergeOne]
      by_cases hk : t.key = k <;> simp [hk]
    · simp [lookupLast, hr]

theorem lookupLast_eq_none (b : Obj) (k : String) (h : hasKey b k = false) :
    lookupLast b k = none := by
  induction b with
  | nil => rfl
  | cons t rest ih =>
    obtain ⟨ht, hr⟩ := hasKey_cons_false t rest k h
    simp [lookupLast, ih hr, ht]

theorem updateFirst_of_lookupFirst_self (l : Obj) (t : Tag)
    (h : lookupFirst l t.key = some t.value) : updateFirst l t = l := by
  induction l with
  | nil => rfl
  | cons e rest ih =>
    by_cases he : e.key = t.key
    · rw [lookupFirst_cons_pos e rest t.key he] at h
      have hv : e.value = t.value := Option.some.inj h
      rw [updateFirst_cons_pos e rest t he, ← hv]
    · rw [lookupFirst_cons_neg e rest t.key he] at h
      rw [updateFirst_cons_neg e rest t he, ih h]

theorem updAll_mergeTags (d : Obj) : ∀ e : Obj,
    updAll (mergeTags e d) d = mergeTags e d := by
  induction d with
  | nil => intro e; rfl
  | cons t rest ih =>
    intro e
    have hB : mergeTags e (t :: rest) = mergeTags (mergeOne e t) rest := rfl
    rw [hB, updAll_cons]
    by_cases hk : hasKey rest t.key = true
    · rw [updAll_updateFirst_cancel rest (mergeTags (mergeOne e t) rest) t hk]
      exact ih (mergeOne e t)
    · have hnone : lookupLast rest t.key = none :=
        lookupLast_eq_none rest t.key (eq_false_of_ne_true hk)
      have hlook : lookupFirst (mergeTags (mergeOne e t) rest) t.key = some t.value := by
        rw [lookupFirst_mergeTags (mergeOne e t) rest t.key, hnone,
          lookupFirst_mergeOne e t t.key, if_pos rfl]
      rw [updateFirst_of_lookupFirst_self (mergeTags (mergeOne e t) rest) t hlook]
      exact ih (mergeOne e t)

/-! Rule matching and the per-file parameter computation of the upload phase
(`getS3Params` inside `ServerlessS3Sync.sync`). -/

/-- A matcher abstracts the external `minimatch` library: it receives the local
file path and the full glob pattern string the plugin builds. -/
abbrev Matcher := String → String → Bool

/-- One entry of `custom.s3Sync[].params`: a rule object whose keys are glob
patterns and whose values are property bags, in `Object.keys` order. -/
structure Rule where
  entries : List (String × Obj)
deriving DecidableEq, Repr

/-- `ServerlessS3Sync.extractMetaParams(config)`: `Object.assign` of every glob
key's property bag into an initially empty object, in key order. -/
def extractMetaParams (r : Rule) : Obj :=
  r.entries.foldl (fun acc e => mergeTags acc e.2) []

/-- The pattern the plugin builds for a rule: the resolved `localDir`, a slash,
and the rule object's FIRST key only (`Object.keys(param)[0]`); for a key-less
rule object JavaScript template interpolation of `undefined` yields the literal
text "undefined". -/
def rulePat (localDir : String) (r : Rule) : String :=
  localDir ++ "/" ++ (match r.entries.head? with
    | some e => e.1
    | none => "undefined")

/-- Whether a rule applies to a local file: `minimatch(localFile, pattern)`. -/
def ruleMatches (m : Matcher) (localDir f : String) (r : Rule) : Bool :=
  m f (rulePat localDir r)

/-- JavaScript truthiness filter for a string-or-undefined value: the empty
string and `undefined` are falsy. -/
def truthyStr (o : Option String) : Option String :=
  match o with
  | some s => if s = "" then none else some s
  | none => none

/-- JavaScript `x || y` for string-or-undefined values. -/
def jsOr (x y : Option String) : Option String :=
  match truthyStr x with
  | some s => some s
  | none => y

/-- One rule iteration of `getS3Params` in `ServerlessS3Sync.sync`: when the
rule matches, `Object.assign` its extracted bag into the accumulator and then
run `onlyForEnv = s3Params['OnlyForEnv'] || onlyForEnv`. -/
def uploadStep (m : Matcher) (localDir f : String)
    (acc : Obj × Option String) (r : Rule) : Obj × Option String :=
  if ruleMatches m localDir f r then
    (mergeTags acc.1 (extractMetaParams r),
      jsOr (lookupFirst (mergeTags acc.1 (extractMetaParams r)) "OnlyForEnv") acc.2)
  else acc

/-- The `s.params.forEach` loop of `getS3Params`: the accumulated `s3Params`
object and the captured `onlyForEnv` value. -/
def uploadScan (m : Matcher) (localDir f : String) (rules : List Rule) :
    Obj × Option String :=
  rules.foldl (uploadStep m localDir f) ([], none)

/-- `getS3Params` of `ServerlessS3Sync.sync` for one local file: `none` models
`cb(null, null)` (file excluded), `some bag` models `cb(null, s3Params)` after
`delete s3Params['OnlyForEnv']`. `env` is `this.options.env` (`none` when the
option is absent). -/
def getS3Params (m : Matcher) (localDir f : String) (env : Option String)
    (rules : List Rule) : Option Obj :=
  match (uploadScan m localDir f rules).2 with
  | some v =>
    if env = some v then some (removeKey (uploadScan m localDir f rules).1 "OnlyForEnv")
    else none
  | none => some (removeKey (uploadScan m localDir f rules).1 "OnlyForEnv")

/-- Declarative reading of the upload accumulator: the in-order shallow merge
of the extracted property bags of exactly the matching rules. -/
def mergeMatching (m : Matcher) (localDir f : String) (rules : List Rule) : Obj :=
  (rules.filter (ruleMatches m localDir f)).foldl
    (fun acc r => mergeTags acc (extractMetaParams r)) []

/-- Declarative reading of a key of the final bag: the value attached to that
key by the last matching rule that carries it. -/
def lastMatchValue (m : Matcher) (localDir f : String) (rules : List Rule)
    (k : String) : Option String :=
  (rules.filter (ruleMatches m localDir f)).foldl
    (fun acc r =>
      match lookupLast (extractMetaParams r) k with
      | some v => some v
      | none => acc) none

/-- Declarative reading of the captured `onlyForEnv` value: the last non-empty
`OnlyForEnv` value among the matching rules' own extracted bags. -/
def lastTruthyOnlyForEnv (m : Matcher) (localDir f : String)
    (rules : List Rule) : Option String :=
  rules.foldl
    (fun acc r =>
      if ruleMatches m localDir f r then
        jsOr (lookupLast (extractMetaParams r) "OnlyForEnv") acc
      else acc) none

theorem uploadScan_fst (m : Matcher) (localDir f : String) :
    ∀ (rules : List Rule) (acc : Obj × Option String),
      (rules.foldl (uploadStep m localDir f) acc).1 =
        (rules.filter (ruleMatches m localDir f)).foldl
          (fun b r => mergeTags b (extractMetaParams r)) acc.1 := by
  intro rules
  induction rules with
  | nil => intro acc; rfl
  | cons r rest ih =>
    intro acc
    by_cases h : ruleMatches m localDir f r = true
    · rw [List.foldl_cons, List.filter_cons_of_pos h, List.foldl_cons]
      have hstep : uploadStep m localDir f acc r =
          (mergeTags acc.1 (extractMetaParams r),
            jsOr (lookupFirst (mergeTags acc.1 (extractMetaParams r)) "OnlyForEnv")
              acc.2) := by
        unfold uploadStep
        rw [if_pos h]
      rw [hstep, ih]
    · rw [List.foldl_cons, List.filter_cons_of_neg (by simp [h]), ]
      have hstep : uploadStep m localDir f acc r = acc := by
        unfold uploadStep
        rw [if_neg h]
      rw [hstep, ih]

theorem lookupFirst_foldl_merge (k : String) :
    ∀ (l : List Rule) (a : Obj),
      lookupFirst (l.foldl (fun b r => mergeTags b (extractMetaParams r)) a) k =
        l.foldl
          (fun o r =>
            match lookupLast (extractMetaParams r) k with
            | some v => some v
            | none => o) (lookupFirst a k) := by
  intro l
  induction l with
  | nil => intro a; rfl
  | cons r rest ih =>
    intro a
    rw [List.foldl_cons, List.foldl_cons, ih (mergeTags a (extractMetaParams r)),
      lookupFirst_mergeTags a (extractMetaParams r) k]

theorem truthyStr_none : truthyStr none = none := rfl

theorem truthyStr_some_empty : truthyStr (some "") = none := rfl

theorem truthyStr_some_of_ne (v : String) (h : ¬ v = "") :
    truthyStr (some v) = some v := by
  show (if v = "" then none else some v) = some v
  rw [if_neg h]

theorem jsOr_none (y : Option String) : jsOr none y = y := rfl

theorem jsOr_some_empty (y : Option String) : jsOr (some "") y = y := rfl

theorem jsOr_some_of_ne (v : String) (h : ¬ v = "") (y : Option String) :
    jsOr (some v) y = some v := by
  show (match truthyStr (some v) with
    | some s => some s
    | none => y) = some v
  rw [truthyStr_some_of_ne v h]

theorem lookupFirst_removeKey_self (l : Obj) (k : String) :
    lookupFirst (removeKey l k) k = none := by
  induction l with
  | nil => rfl
  | cons e rest ih =>
    by_cases he : e.key = k
    · have hstep : removeKey (e :: rest) k = removeKey rest k := by
        simp [removeKey, List.filter_cons, he]
      rw [hstep]
      exact ih
    · have hstep : removeKey (e :: rest) k = e :: removeKey rest k := by
        simp [removeKey, List.filter_cons, he]
      rw [hstep, lookupFirst_cons_neg e _ k he]
      exact ih

theorem uploadScan_snd_aux (m : Matcher) (localDir f : String) :
    ∀ (rules : List Rule) (bag : Obj) (o : Option String),
      (∀ s, truthyStr (lookupFirst bag "OnlyForEnv") = some s → o = some s) →
      (rules.foldl (uploadStep m localDir f) (bag, o)).2 =
        rules.foldl
          (fun acc r =>
            if ruleMatches m localDir f r then
              jsOr (lookupLast (extractMetaParams r) "OnlyForEnv") acc
            else acc) o := by
  intro rules
  induction rules with
  | nil => intro bag o _; rfl
  | cons r rest ih =>
    intro bag o hinv
    by_cases hm : ruleMatches m localDir f r = true
    · have hstep : uploadStep m localDir f (bag, o) r =
          (mergeTags bag (extractMetaParams r),
            jsOr (lookupFirst (mergeTags bag (extractMetaParams r)) "OnlyForEnv") o) := by
        unfold uploadStep
        rw [if_pos hm]
      rw [List.foldl_cons, hstep, List.foldl_cons, if_pos hm]
      have hmaster := lookupFirst_mergeTags bag (extractMetaParams r) "OnlyForEnv"
      rcases hl : lookupLast (extractMetaParams r) "OnlyForEnv" with _ | v
      · rw [hl] at hmaster
        have hfm : lookupFirst (mergeTags bag (extractMetaParams r)) "OnlyForEnv" =
            lookupFirst bag "OnlyForEnv" := hmaster
        have hnew : jsOr (lookupFirst (mergeTags bag (extractMetaParams r)) "OnlyForEnv") o
            = o := by
          rw [hfm]
          rcases ht : truthyStr (lookupFirst bag "OnlyForEnv") with _ | s
          · show (match truthyStr (lookupFirst bag "OnlyForEnv") with
              | some s => some s
              | none => o) = o
            rw [ht]
          · show (match truthyStr (lookupFirst bag "OnlyForEnv") with
              | some s => some s
              | none => o) = o
            rw [ht]
            exact (hinv s ht).symm
        rw [hnew, jsOr_none]
        apply ih
        intro s hs
        rw [hfm] at hs
        exact hinv s hs
      · rw [hl] at hmaster
        have hfm : lookupFirst (mergeTags bag (extractMetaParams r)) "OnlyForEnv" =
            some v := hmaster
        by_cases hv : v = ""
        · subst hv
          rw [hfm, jsOr_some_empty]
          apply ih
          intro s hs
          rw [hfm] at hs
          exact absurd hs (by simp [truthyStr])
        · rw [hfm, jsOr_some_of_ne v hv]
          apply ih
          intro s hs
          rw [hfm, truthyStr_some_of_ne v hv] at hs
          exact hs
    · have hstep : uploadStep m localDir f (bag, o) r = (bag, o) := by
        unfold uploadStep
        rw [if_neg hm]
      rw [List.foldl_cons, hstep, List.foldl_cons, if_neg hm]
      exact ih bag o hinv

theorem uploadScan_snd (m : Matcher) (localDir f : String) (rules : List Rule) :
    (uploadScan m localDir f rules).2 = lastTruthyOnlyForEnv m localDir f rules := by
  apply uploadScan_snd_aux
  intro s hs
  exact absurd hs (by simp [lookupFirst, truthyStr])

/-- C1: the property bag the upload phase produces for a local file is the
in-order shallow merge of the extracted bags of exactly the rules whose glob
pattern matches the path, and each key of that bag holds the value given by
the last matching rule that carries the key (later rules win). -/
theorem c1_upload_bag_is_ordered_merge (m : Matcher) (localDir f : String)
    (rules : List Rule) (k : String) :
    (uploadScan m localDir f rules).1 = mergeMatching m localDir f rules ∧
      lookupFirst (uploadScan m localDir f rules).1 k =
        lastMatchValue m localDir f rules k := by
  have h1 : (uploadScan m localDir f rules).1 = mergeMatching m localDir f rules :=
    uploadScan_fst m localDir f rules ([], none)
  refine ⟨h1, ?_⟩
  rw [h1]
  exact lookupFirst_foldl_merge k (rules.filter (ruleMatches m localDir f)) []

/-- C10: a rule object with several glob keys matches through its first key
only, yet when that first pattern matches, the bags attached to all of its
keys (including the later ones) are merged into the parameters applied to the
file. -/
theorem c10_first_key_matches_all_bags_apply (m : Matcher) (localDir f g : String)
    (b : Obj) (rest : List (String × Obj)) (k : String) :
    ruleMatches m localDir f (Rule.mk ((g, b) :: rest)) = m f (localDir ++ "/" ++ g) ∧
      lookupFirst (uploadScan m localDir f [Rule.mk ((g, b) :: rest)]).1 k =
        (if m f (localDir ++ "/" ++ g) then
          lookupLast (extractMetaParams (Rule.mk ((g, b) :: rest))) k
        else none) := by
  constructor
  · rfl
  · have hmatch : ruleMatches m localDir f (Rule.mk ((g, b) :: rest)) =
        m f (localDir ++ "/" ++ g) := rfl
    by_cases h : m f (localDir ++ "/" ++ g) = true
    · have hsingle : (uploadScan m localDir f [Rule.mk ((g, b) :: rest)]).1 =
          mergeTags [] (extractMetaParams (Rule.mk ((g, b) :: rest))) := by
        unfold uploadScan uploadStep
        rw [List.foldl_cons, hmatch, if_pos h]
        rfl
      rw [hsingle, if_pos h,
        lookupFirst_mergeTags [] (extractMetaParams (Rule.mk ((g, b) :: rest))) k]
      rcases lookupLast (extractMetaParams (Rule.mk ((g, b) :: rest))) k with _ | v <;> rfl
    · have hsingle : (uploadScan m localDir f [Rule.mk ((g, b) :: rest)]).1 = [] := by
        unfold uploadScan uploadStep
        rw [List.foldl_cons, hmatch, if_neg h]
        rfl
      rw [hsingle, if_neg h]
      rfl

/-- C4: merging the same desired tag set twice yields the same tag set as
merging it once (idempotence of `ServerlessS3Sync.mergeTags`). -/
theorem c4_mergeTags_idempotent (existingTagSet desiredTagSet : Obj) :
    mergeTags (mergeTags existingTagSet desiredTagSet) desiredTagSet =
      mergeTags existingTagSet desiredTagSet := by
  have hall : ∀ t ∈ desiredTagSet,
      hasKey (mergeTags existingTagSet desiredTagSet) t.key = true :=
    fun t ht => hasKey_mergeTags_mem existingTagSet desiredTagSet t ht
  rw [mergeTags_eq_updAll (mergeTags existingTagSet desiredTagSet) desiredTagSet hall]
  exact updAll_mergeTags desiredTagSet existingTagSet

/-- C5: a tag key present in the existing tag set and absent from the desired
tag set keeps its value across `ServerlessS3Sync.mergeTags`, and the key stays
present; only keys of the desired set are overwritten or appended. -/
theorem c5_mergeTags_preserves_untouched (existingTagSet desiredTagSet : Obj)
    (k : String) (h1 : hasKey existingTagSet k = true)
    (h2 : hasKey desiredTagSet k = false) :
    lookupFirst (mergeTags existingTagSet desiredTagSet) k =
        lookupFirst existingTagSet k ∧
      hasKey (mergeTags existingTagSet desiredTagSet) k = true := by
  constructor
  · rw [lookupFirst_mergeTags existingTagSet desiredTagSet k,
      lookupLast_eq_none desiredTagSet k h2]
  · exact hasKey_mergeTags_of existingTagSet desiredTagSet k h1

/-! The metadata resync phase (`ServerlessS3Sync.syncMetadata`): the
`filesToSync` computation, and its per-file reading as a small state machine
so it can be compared with the upload phase. -/

/-- Per-file processing state in `syncMetadata`: a file is either on the
`ignoreFiles` list for good, or carries its pending `filesToSync` entry. -/
inductive MetaState where
  | ignored
  | active (cur : Option Obj)
deriving DecidableEq, Repr

/-- The exclusion test of `syncMetadata` for one rule's extracted bag:
`params['OnlyForEnv'] && params['OnlyForEnv'] !== this.options.env`. -/
def metaExcluded (env : Option String) (p : Obj) : Bool :=
  match truthyStr (lookupFirst p "OnlyForEnv") with
  | some v => env != some v
  | none => false

/-- Per-file effect of one matching rule in `syncMetadata`: a truthy
`OnlyForEnv` mismatch ignores the file permanently; otherwise the file's
pending entry is REPLACED (not merged) by this rule's extracted bag with
`OnlyForEnv` deleted. -/
def metaFileStep (env : Option String) (p : Obj) (s : MetaState) : MetaState :=
  match s with
  | .ignored => .ignored
  | .active _ =>
    if metaExcluded env p then .ignored
    else .active (some (removeKey p "OnlyForEnv"))

/-- One rule of `syncMetadata`, seen from a single file. -/
def metaStep (m : Matcher) (localDir : String) (env : Option String) (f : String)
    (s : MetaState) (r : Rule) : MetaState :=
  if ruleMatches m localDir f r then metaFileStep env (extractMetaParams r) s else s

/-- The final metadata bag for one file: `none` when the file is never added
to `filesToSync` (no matching rule, or ignored), `some bag` otherwise. -/
def metaParamsFor (m : Matcher) (localDir : String) (env : Option String)
    (f : String) (rules : List Rule) : Option Obj :=
  match rules.foldl (metaStep m localDir env f) (.active none) with
  | .ignored => none
  | .active cur => cur

/-- One iteration of the inner `forEach(match)` of `syncMetadata` over the
state (`ignoreFiles`, `filesToSync`). -/
def metaProcessFile (env : Option String) (f : String) (p : Obj)
    (st : List String × List (String × Obj)) :
    List String × List (String × Obj) :=
  if f ∈ st.1 then st
  else if metaExcluded env p then (st.1 ++ [f], st.2.filter (fun e => e.1 != f))
  else (st.1, st.2.filter (fun e => e.1 != f) ++ [(f, removeKey p "OnlyForEnv")])

/-- The `filesToSync` computation of `ServerlessS3Sync.syncMetadata`: iterate
the rules in order; for each rule, filter the local file list by the rule's
pattern and process every match. -/
def filesToSync (m : Matcher) (localDir : String) (env : Option String)
    (rules : List Rule) (files : List String) : List (String × Obj) :=
  (rules.foldl
    (fun st r =>
      (files.filter (fun f => ruleMatches m localDir f r)).foldl
        (fun st2 f => metaProcessFile env f (extractMetaParams r) st2) st)
    ([], [])).2

/-- Relation between the stateful `filesToSync` fold and the per-file state
machine, for a fixed file. -/
def metaREL (f : String) (st : List String × List (String × Obj))
    (s : MetaState) : Prop :=
  match s with
  | .ignored => f ∈ st.1 ∧ st.2.find? (fun e => e.1 == f) = none
  | .active cur =>
    f ∉ st.1 ∧ st.2.find? (fun e => e.1 == f) = cur.map (fun b => (f, b))

theorem find?_cons_pos (e : String × Obj) (rest : List (String × Obj)) (f : String)
    (h : (e.1 == f) = true) :
    List.find? (fun x => x.1 == f) (e :: rest) = some e := by
  simp [List.find?_cons, h]

theorem find?_cons_neg (e : String × Obj) (rest : List (String × Obj)) (f : String)
    (h : (e.1 == f) = false) :
    List.find? (fun x => x.1 == f) (e :: rest) =
      List.find? (fun x => x.1 == f) rest := by
  simp [List.find?_cons, h]

theorem find?_filter_ne (l : List (String × Obj)) (f g : String) (h : ¬ f = g) :
    (l.filter (fun e => e.1 != g)).find? (fun e => e.1 == f) =
      l.find? (fun e => e.1 == f) := by
  induction l with
  | nil => rfl
  | cons e rest ih =>
    by_cases heg : e.1 = g
    · have hdrop : (e :: rest).filter (fun e => e.1 != g) =
          rest.filter (fun e => e.1 != g) := by
        simp [List.filter_cons, heg]
      have hnf : (e.1 == f) = false := by
        rw [heg]
        simp
        intro hc
        exact h hc.symm
      rw [hdrop, ih, find?_cons_neg e rest f hnf]
    · have hkeep : (e :: rest).filter (fun e => e.1 != g) =
          e :: rest.filter (fun e => e.1 != g) := by
        simp [List.filter_cons, heg]
      rw [hkeep]
      by_cases hef : (e.1 == f) = true
      · rw [find?_cons_pos e _ f hef, find?_cons_pos e rest f hef]
      · have hef2 : (e.1 == f) = false := eq_false_of_ne_true hef
        rw [find?_cons_neg e _ f hef2, find?_cons_neg e rest f hef2, ih]

theorem find?_filter_self (l : List (String × Obj)) (f : String) :
    (l.filter (fun e => e.1 != f)).find? (fun e => e.1 == f) = none := by
  induction l with
  | nil => rfl
  | cons e rest ih =>
    by_cases hef : e.1 = f
    · have hdrop : (e :: rest).filter (fun e => e.1 != f) =
          rest.filter (fun e => e.1 != f) := by
        simp [List.filter_cons, hef]
      rw [hdrop, ih]
    · have hkeep : (e :: rest).filter (fun e => e.1 != f) =
          e :: rest.filter (fun e => e.1 != f) := by
        simp [List.filter_cons, hef]
      rw [hkeep, find?_cons_neg e _ f (by simp [hef]), ih]

theorem find?_append_single (l : List (String × Obj)) (f g : String) (b : Obj) :
    (l ++ [(g, b)]).find? (fun e => e.1 == f) =
      match l.find? (fun e => e.1 == f) with
      | some x => some x
      | none => List.find? (fun e => e.1 == f) [(g, b)] := by
  induction l with
  | nil => rfl
  | cons e rest ih =>
    by_cases hef : (e.1 == f) = true
    · rw [List.cons_append, find?_cons_pos e _ f hef, find?_cons_pos e rest f hef]
    · have hef2 : (e.1 == f) = false := eq_false_of_ne_true hef
      rw [List.cons_append, find?_cons_neg e _ f hef2, find?_cons_neg e rest f hef2, ih]

theorem find?_filter_self_append (l : List (String × Obj)) (f : String) (b : Obj) :
    ((l.filter (fun e => e.1 != f)) ++ [(f, b)]).find? (fun e => e.1 == f) =
      some (f, b) := by
  rw [find?_append_single, find?_filter_self]
  exact find?_cons_pos (f, b) [] f (by simp)

theorem find?_append_single_ne (l : List (String × Obj)) (f g : String) (b : Obj)
    (h : ¬ g = f) :
    (l ++ [(g, b)]).find? (fun e => e.1 == f) = l.find? (fun e => e.1 == f) := by
  rw [find?_append_single]
  have hgb : List.find? (fun e => e.1 == f) [(g, b)] = none := by
    rw [find?_cons_neg (g, b) [] f (by simp [h])]
    rfl
  rcases hl : l.find? (fun e => e.1 == f) with _ | x
  · rw [hl]
    exact hgb
  · rw [hl]

theorem metaREL_other (env : Option String) (f g : String) (p : Obj)
    (st : List String × List (String × Obj)) (s : MetaState)
    (hne : ¬ g = f) (h : metaREL f st s) :
    metaREL f (metaProcessFile env g p st) s := by
  have hfg : ¬ f = g := fun hc => hne hc.symm
  unfold metaProcessFile
  by_cases hg : g ∈ st.1
  · rw [if_pos hg]
    exact h
  · rw [if_neg hg]
    by_cases hex : metaExcluded env p = true
    · rw [if_pos hex]
      cases s with
      | ignored =>
        obtain ⟨h1, h2⟩ := h
        refine ⟨List.mem_append_left _ h1, ?_⟩
        rw [find?_filter_ne st.2 f g hfg]
        exact h2
      | active cur =>
        obtain ⟨h1, h2⟩ := h
        refine ⟨?_, ?_⟩
        · intro hc
          rcases List.mem_append.mp hc with hc | hc
          · exact h1 hc
          · exact hfg (List.mem_singleton.mp hc)
        · rw [find?_filter_ne st.2 f g hfg]
          exact h2
    · rw [if_neg hex]
      cases s with
      | ignored =>
        obtain ⟨h1, h2⟩ := h
        refine ⟨h1, ?_⟩
        rw [find?_append_single_ne _ f g _ hne, find?_filter_ne st.2 f g hfg]
        exact h2
      | active cur =>
        obtain ⟨h1, h2⟩ := h
        refine ⟨h1, ?_⟩
        rw [find?_append_single_ne _ f g _ hne, find?_filter_ne st.2 f g hfg]
        exact h2

theorem metaREL_self (env : Option String) (f : String) (p : Obj)
    (st : List String × List (String × Obj)) (s : MetaState)
    (h : metaREL f st s) :
    metaREL f (metaProcessFile env f p st) (metaFileStep env p s) := by
  unfold metaProcessFile
  cases s with
  | ignored =>
    obtain ⟨h1, h2⟩ := h
    rw [if_pos h1]
    exact ⟨h1, h2⟩
  | active cur =>
    obtain ⟨h1, h2⟩ := h
    rw [if_neg h1]
    by_cases hex : metaExcluded env p = true
    · have hstep : metaFileStep env p (.active cur) = .ignored := by
        simp only [metaFileStep]
        rw [if_pos hex]
      rw [if_pos hex, hstep]
      exact ⟨List.mem_append_right _ (by simp), find?_filter_self st.2 f⟩
    · have hstep : metaFileStep env p (.active cur) =
          .active (some (removeKey p "OnlyForEnv")) := by
        simp only [metaFileStep]
        rw [if_neg hex]
      rw [if_neg hex, hstep]
      exact ⟨h1, find?_filter_self_append st.2 f _⟩

theorem metaREL_batch_not_mem (env : Option String) (f : String) (p : Obj) :
    ∀ (gs : List String) (st : List String × List (String × Obj)) (s : MetaState),
      f ∉ gs → metaREL f st s →
      metaREL f (gs.foldl (fun st2 g => metaProcessFile env g p st2) st) s := by
  intro gs
  induction gs with
  | nil => intro st s _ h; exact h
  | cons g rest ih =>
    intro st s hmem h
    rw [List.foldl_cons]
    have hsplit : ¬ f = g ∧ f ∉ rest := by
      constructor
      · intro hc
        exact hmem (by rw [hc]; exact List.mem_cons_self g rest)
      · intro hc
        exact hmem (List.mem_cons_of_mem g hc)
    exact ih _ _ hsplit.2 (metaREL_other env f g p st s (fun hc => hsplit.1 hc.symm) h)

theorem metaREL_batch (env : Option String) (f : String) (p : Obj) :
    ∀ (gs : List String) (st : List String × List (String × Obj)) (s : MetaState),
      gs.Nodup → metaREL f st s →
      metaREL f (gs.foldl (fun st2 g => metaProcessFile env g p st2) st)
        (if f ∈ gs then metaFileStep env p s else s) := by
  intro gs
  induction gs with
  | nil =>
    intro st s _ h
    rw [if_neg (List.not_mem_nil f)]
    exact h
  | cons g rest ih =>
    intro st s hnd h
    rw [List.foldl_cons]
    have hnd2 := List.nodup_cons.mp hnd
    by_cases hgf : g = f
    · subst hgf
      have hstep := metaREL_self env g p st s h
      have hrest := metaREL_batch_not_mem env g p rest _ _ hnd2.1 hstep
      rw [if_pos (List.mem_cons_self g rest)]
      exact hrest
    · have hother := metaREL_other env f g p st s hgf h
      have hih := ih (metaProcessFile env g p st) s hnd2.2 hother
      by_cases hf : f ∈ rest
      · rw [if_pos hf] at hih
        rw [if_pos (List.mem_cons_of_mem g hf)]
        exact hih
      · rw [if_neg hf] at hih
        have hnotin : f ∉ g :: rest := by
          intro hc
          rcases List.mem_cons.mp hc with hc | hc
          · exact hgf hc.symm
          · exact hf hc
        rw [if_neg hnotin]
        exact hih

theorem metaREL_rules (m : Matcher) (localDir : String) (env : Option String)
    (f : String) (files : List String) (hnd : files.Nodup) (hmem : f ∈ files) :
    ∀ (rules : List Rule) (st : List String × List (String × Obj)) (s : MetaState),
      metaREL f st s →
      metaREL f
        (rules.foldl
          (fun st1 r =>
            (files.filter (fun fl => ruleMatches m localDir fl r)).foldl
              (fun st2 g => metaProcessFile env g (extractMetaParams r) st2) st1)
          st)
        (rules.foldl (metaStep m localDir env f) s) := by
  intro rules
  induction rules with
  | nil => intro st s h; exact h
  | cons r rest ihr =>
    intro st s h
    rw [List.foldl_cons, List.foldl_cons]
    have hnd2 : (files.filter (fun fl => ruleMatches m localDir fl r)).Nodup :=
      hnd.filter _
    have hbatch := metaREL_batch env f (extractMetaParams r)
      (files.filter (fun fl => ruleMatches m localDir fl r)) st s hnd2 h
    have hmem_iff : f ∈ files.filter (fun fl => ruleMatches m localDir fl r) ↔
        ruleMatches m localDir f r = true := by
      simp [List.mem_filter, hmem]
    have hstep_eq :
        (if f ∈ files.filter (fun fl => ruleMatches m localDir fl r) then
          metaFileStep env (extractMetaParams r) s
        else s) = metaStep m localDir env f s r := by
      unfold metaStep
      by_cases hr : ruleMatches m localDir f r = true
      · rw [if_pos hr, if_pos (hmem_iff.mpr hr)]
      · rw [if_neg hr, if_neg (fun hc => hr (hmem_iff.mp hc))]
    rw [hstep_eq] at hbatch
    exact ihr _ _ hbatch

/-- Bridge: the entry `filesToSync` finally holds for a given local file is
exactly what the per-file state machine computes for that file. -/
theorem filesToSync_find (m : Matcher) (localDir : String) (env : Option String)
    (rules : List Rule) (files : List String) (f : String)
    (hnd : files.Nodup) (hmem : f ∈ files) :
    (filesToSync m localDir env rules files).find? (fun e => e.1 == f) =
      (metaParamsFor m localDir env f rules).map (fun b => (f, b)) := by
  have hinit : metaREL f ([], []) (MetaState.active none) := ⟨by simp, rfl⟩
  have hfin := metaREL_rules m localDir env f files hnd hmem rules ([], [])
    (.active none) hinit
  unfold filesToSync metaParamsFor
  rcases hst : List.foldl (metaStep m localDir env f) (.active none) rules with _ | cur
  · rw [hst] at hfin
    exact hfin.2
  · rw [hst] at hfin
    exact hfin.2

theorem foldl_uploadStep_id (m : Matcher) (localDir f : String) :
    ∀ (rules : List Rule) (acc : Obj × Option String),
      (∀ r ∈ rules, ruleMatches m localDir f r = false) →
      rules.foldl (uploadStep m localDir f) acc = acc := by
  intro rules
  induction rules with
  | nil => intro acc _; rfl
  | cons r rest ih =>
    intro acc hall
    rw [List.foldl_cons]
    have hstep : uploadStep m localDir f acc r = acc := by
      unfold uploadStep
      rw [if_neg (by simp [hall r (List.mem_cons_self r rest)])]
    rw [hstep]
    exact ih acc (fun r2 hr2 => hall r2 (List.mem_cons_of_mem r hr2))

theorem foldl_metaStep_id (m : Matcher) (localDir : String) (env : Option String)
    (f : String) :
    ∀ (rules : List Rule) (s : MetaState),
      (∀ r ∈ rules, ruleMatches m localDir f r = false) →
      rules.foldl (metaStep m localDir env f) s = s := by
  intro rules
  induction rules with
  | nil => intro s _; rfl
  | cons r rest ih =>
    intro s hall
    rw [List.foldl_cons]
    have hstep : metaStep m localDir env f s r = s := by
      unfold metaStep
      rw [if_neg (by simp [hall r (List.mem_cons_self r rest)])]
    rw [hstep]
    exact ih s (fun r2 hr2 => hall r2 (List.mem_cons_of_mem r hr2))

theorem hasKey_eq_false_of_not_mem (l : Obj) (k : String)
    (h : k ∉ l.map Tag.key) : hasKey l k = false := by
  induction l with
  | nil => rfl
  | cons e rest ih =>
    rw [List.map_cons, List.mem_cons] at h
    push_neg at h
    rw [hasKey_cons, decide_eq_false (fun hc => h.1 hc.symm), ih h.2, Bool.false_or]

theorem keysNodup_mergeOne (l : Obj) (t : Tag)
    (h : (l.map Tag.key).Nodup) : ((mergeOne l t).map Tag.key).Nodup := by
  unfold mergeOne
  by_cases hk : hasKey l t.key = true
  · rw [if_pos hk, keys_updateFirst]
    exact h
  · rw [if_neg hk, List.map_append]
    rw [List.nodup_append]
    refine ⟨h, List.nodup_singleton _, ?_⟩
    intro a ha hb
    rw [List.map_singleton, List.mem_singleton] at hb
    subst hb
    rcases List.mem_map.mp ha with ⟨s, hs, hkey⟩
    apply hk
    unfold hasKey
    rw [List.any_eq_true]
    exact ⟨s, hs, by simp [hkey]⟩

theorem keysNodup_mergeTags (d : Obj) : ∀ (l : Obj),
    (l.map Tag.key).Nodup → ((mergeTags l d).map Tag.key).Nodup := by
  induction d with
  | nil => intro l h; exact h
  | cons t rest ih =>
    intro l h
    exact ih (mergeOne l t) (keysNodup_mergeOne l t h)

theorem keysNodup_extract (r : Rule) :
    ((extractMetaParams r).map Tag.key).Nodup := by
  unfold extractMetaParams
  have haux : ∀ (es : List (String × Obj)) (acc : Obj), (acc.map Tag.key).Nodup →
      (((es.foldl (fun a e => mergeTags a e.2) acc)).map Tag.key).Nodup := by
    intro es
    induction es with
    | nil => intro acc h; exact h
    | cons e rest ih =>
      intro acc h
      rw [List.foldl_cons]
      exact ih (mergeTags acc e.2) (keysNodup_mergeTags e.2 acc h)
  exact haux r.entries [] (by simp)

theorem mergeTags_append_of_disjoint : ∀ (p l : Obj),
    (∀ t ∈ p, hasKey l t.key = false) → (p.map Tag.key).Nodup →
    mergeTags l p = l ++ p := by
  intro p
  induction p with
  | nil => intro l _ _; simp [mergeTags]
  | cons t rest ih =>
    intro l hdis hnd
    have hnd2 : t.key ∉ rest.map Tag.key ∧ (rest.map Tag.key).Nodup := by
      rw [List.map_cons, List.nodup_cons] at hnd
      exact hnd
    have ht : hasKey l t.key = false := hdis t (List.mem_cons_self t rest)
    have hstep : mergeOne l t = l ++ [t] := by
      unfold mergeOne
      rw [if_neg (by simp [ht])]
    have hrec : mergeTags (l ++ [t]) rest = (l ++ [t]) ++ rest := by
      apply ih
      · intro s hs
        rw [hasKey_append]
        have h1 : hasKey l s.key = false := hdis s (List.mem_cons_of_mem t hs)
        have hts : ¬ t.key = s.key := fun hc =>
          hnd2.1 (by rw [hc]; exact List.mem_map.mpr ⟨s, hs, rfl⟩)
        have h2 : hasKey [t] s.key = false := by
          rw [hasKey_cons, decide_eq_false hts, hasKey_nil, Bool.false_or]
        rw [h1, h2]
        rfl
      · exact hnd2.2
    calc mergeTags l (t :: rest) = mergeTags (mergeOne l t) rest := rfl
      _ = mergeTags (l ++ [t]) rest := by rw [hstep]
      _ = (l ++ [t]) ++ rest := hrec
      _ = l ++ (t :: rest) := by simp

theorem mergeTags_nil_left (p : Obj) (h : (p.map Tag.key).Nodup) :
    mergeTags [] p = p := by
  have := mergeTags_append_of_disjoint p [] (fun t _ => rfl) h
  simpa using this

theorem jsOr_none_right (x : Option String) : jsOr x none = truthyStr x := by
  cases hx : truthyStr x <;> simp [jsOr, hx]

/-- When exactly one rule matches a file, the metadata phase computes the
same inclusion decision and final bag as the upload phase. -/
theorem metaParamsFor_eq_getS3Params (m : Matcher) (localDir f : String)
    (env : Option String) :
    ∀ rules : List Rule,
      rules.countP (fun r => ruleMatches m localDir f r) = 1 →
      metaParamsFor m localDir env f rules = getS3Params m localDir f env rules := by
  intro rules
  induction rules with
  | nil => intro h; simp at h
  | cons r rest ih =>
    intro h
    by_cases hm : ruleMatches m localDir f r = true
    · have hnone : ∀ r2 ∈ rest, ruleMatches m localDir f r2 = false := by
        simp [List.countP_cons, hm] at h
        exact h
      have hup : uploadScan m localDir f (r :: rest) =
          (extractMetaParams r,
            truthyStr (lookupFirst (extractMetaParams r) "OnlyForEnv")) := by
        unfold uploadScan
        rw [List.foldl_cons, foldl_uploadStep_id m localDir f rest _ hnone]
        show (if ruleMatches m localDir f r = true then _ else _) = _
        rw [if_pos hm]
        show (mergeTags [] (extractMetaParams r),
            jsOr (lookupFirst (mergeTags [] (extractMetaParams r)) "OnlyForEnv") none) = _
        rw [mergeTags_nil_left (extractMetaParams r) (keysNodup_extract r), jsOr_none_right]
      have hmeta : List.foldl (metaStep m localDir env f) (MetaState.active none)
          (r :: rest) = metaFileStep env (extractMetaParams r) (.active none) := by
        rw [List.foldl_cons, foldl_metaStep_id m localDir env f rest _ hnone]
        show (if ruleMatches m localDir f r = true then _ else _) = _
        rw [if_pos hm]
      have hmp : metaParamsFor m localDir env f (r :: rest) =
          (if metaExcluded env (extractMetaParams r) then none
           else some (removeKey (extractMetaParams r) "OnlyForEnv")) := by
        unfold metaParamsFor
        rw [hmeta]
        show (match (if metaExcluded env (extractMetaParams r) then MetaState.ignored
            else MetaState.active (some (removeKey (extractMetaParams r) "OnlyForEnv"))) with
          | MetaState.ignored => none
          | MetaState.active cur => cur) = _
        by_cases hex : metaExcluded env (extractMetaParams r) = true
        · rw [if_pos hex, if_pos hex]
        · rw [if_neg hex, if_neg hex]
      have hgot : getS3Params m localDir f env (r :: rest) =
          (match truthyStr (lookupFirst (extractMetaParams r) "OnlyForEnv") with
            | some v =>
              if env = some v then
                some (removeKey (extractMetaParams r) "OnlyForEnv")
              else none
            | none => some (removeKey (extractMetaParams r) "OnlyForEnv")) := by
        unfold getS3Params
        rw [hup]
      rw [hmp, hgot]
      unfold metaExcluded
      rcases ht : truthyStr (lookupFirst (extractMetaParams r) "OnlyForEnv") with _ | v
      · simp
      · by_cases he : env = some v <;> simp [he]
    · have hcount : rest.countP (fun r2 => ruleMatches m localDir f r2) = 1 := by
        rw [List.countP_cons] at h
        simpa [hm] using h
      have hml : metaParamsFor m localDir env f (r :: rest) =
          metaParamsFor m localDir env f rest := by
        unfold metaParamsFor
        rw [List.foldl_cons]
        have hstep : metaStep m localDir env f (.active none) r = .active none := by
          unfold metaStep
          rw [if_neg hm]
        rw [hstep]
      have hul : getS3Params m localDir f env (r :: rest) =
          getS3Params m localDir f env rest := by
        unfold getS3Params uploadScan
        rw [List.foldl_cons]
        have hstep : uploadStep m localDir f ([], none) r = ([], none) := by
          unfold uploadStep
          rw [if_neg hm]
        rw [hstep]
      rw [hml, hul]
      exact ih hcount

/-- C2 (amended): the upload phase excludes a file exactly when the LAST
NON-EMPTY `OnlyForEnv` value accumulated over the matching rules exists and
differs from the current environment (the code tests JavaScript truthiness, so
an empty-string `OnlyForEnv` never excludes), and the final property bag never
contains the `OnlyForEnv` key, also when it was the only key. -/
theorem c2_amended_onlyforenv_gating (m : Matcher) (localDir f : String)
    (env : Option String) (rules : List Rule) :
    (getS3Params m localDir f env rules).isNone =
      (match lastTruthyOnlyForEnv m localDir f rules with
        | some v => env != some v
        | none => false) ∧
      lookupFirst ((getS3Params m localDir f env rules).getD []) "OnlyForEnv" = none := by
  have hsnd := uploadScan_snd m localDir f rules
  constructor
  · unfold getS3Params
    rw [hsnd]
    rcases h : lastTruthyOnlyForEnv m localDir f rules with _ | v
    · rfl
    · by_cases he : env = some v
      · simp [he]
      · simp [he]
  · unfold getS3Params
    rw [hsnd]
    rcases h : lastTruthyOnlyForEnv m localDir f rules with _ | v
    · simp [lookupFirst_removeKey_self]
    · by_cases he : env = some v
      · simp [he, lookupFirst_removeKey_self]
      · simp [he, lookupFirst]

/-- C2 counterexample: one matching rule sets `OnlyForEnv` to the empty
string while the current environment is "prod". The accumulated bag then
contains `OnlyForEnv` with a value different from the environment, so the
claim as stated requires exclusion; the code instead includes the file
(JavaScript truthiness: the empty string is falsy), returning the empty final
bag. -/
theorem c2_counterexample :
    lookupFirst
        (uploadScan (fun a b => a == b) "dir" "dir/g"
          [Rule.mk [("g", [Tag.mk "OnlyForEnv" ""])]]).1 "OnlyForEnv" = some "" ∧
      ("" : String) ≠ "prod" ∧
      getS3Params (fun a b => a == b) "dir" "dir/g" (some "prod")
        [Rule.mk [("g", [Tag.mk "OnlyForEnv" ""])]] = some [] := by
  refine ⟨?_, ?_, ?_⟩ <;> decide

/-! Sync targets and the per-target bodies of the three phases, plus bucket
name resolution and the progress handler. -/

/-- One entry of `custom.s3Sync`: the fields the claims depend on. String
fields are string-or-undefined; `enabled` is checked with strict equality
`=== false` in the code. `rules` models `s.params` (the empty list also covers
a missing or non-array `params`). -/
structure SyncTarget where
  bucketName : Option String
  bucketNameKey : Option String
  localDir : Option String
  enabled : Option Bool
  rules : List Rule
  bucketTags : Option Obj
deriving DecidableEq, Repr

/-- JavaScript truthiness of a string-or-undefined configuration field. -/
def optTruthy (o : Option String) : Bool :=
  match o with
  | some s => s != ""
  | none => false

/-- The validity test of `sync` and `syncMetadata`:
`(!s.bucketName && !s.bucketNameKey) || !s.localDir`. -/
def invalidTarget (s : SyncTarget) : Bool :=
  (!optTruthy s.bucketName && !optTruthy s.bucketNameKey) || !optTruthy s.localDir

/-- Per-target synchronous body of `ServerlessS3Sync.sync`: a target with
`enabled === false` is skipped before anything else (`ok none`), an invalid
one throws, otherwise the target's upload work is issued (`ok (some s)`). -/
def syncTargetStep (s : SyncTarget) : Except String (Option SyncTarget) :=
  if s.enabled = some false then Except.ok none
  else if invalidTarget s then Except.error "Invalid custom.s3Sync"
  else Except.ok (some s)

/-- One iteration of the `s3Sync.map` of `sync`. The callback is synchronous,
so a thrown configuration error aborts the whole iteration. -/
def syncFoldStep (acc : Except String (List (Option SyncTarget)))
    (s : SyncTarget) : Except String (List (Option SyncTarget)) :=
  match acc with
  | Except.error e => Except.error e
  | Except.ok l =>
    match syncTargetStep s with
    | Except.error e => Except.error e
    | Except.ok o => Except.ok (l ++ [o])

/-- The `s3Sync.map` of `ServerlessS3Sync.sync`: an error thrown for one
target prevents every later target from being processed. -/
def syncPhase (ts : List SyncTarget) : Except String (List (Option SyncTarget)) :=
  ts.foldl syncFoldStep (Except.ok [])

/-- Per-target body of `ServerlessS3Sync.syncMetadata`: the callback is an
`async` function, so a thrown error rejects only this target's promise; there
is NO `enabled` check. The result lists one `copyObject` operation per
`filesToSync` entry. -/
def metaTargetStep (m : Matcher) (env : Option String) (files : List String)
    (s : SyncTarget) : Except String (List (String × Obj)) :=
  if invalidTarget s then Except.error "Invalid custom.s3Sync"
  else Except.ok (filesToSync m (s.localDir.getD "") env s.rules files)

/-- Per-target body of `ServerlessS3Sync.syncBucketTags`: no `enabled` check
and no `localDir` check; a target without `bucketTags` is skipped before the
bucket name is even resolved; otherwise the phase reads the existing tag set,
runs `mergeTags` into it and writes it back — represented by the desired tag
list of the issued read-merge-write operation. -/
def tagsTargetStep (s : SyncTarget) : Except String (Option Obj) :=
  if !optTruthy s.bucketName && !optTruthy s.bucketNameKey then
    Except.error "Invalid custom.s3Sync"
  else
    match s.bucketTags with
    | none => Except.ok none
    | some tags => Except.ok (some tags)

/-- `resolveStackOutput`: one `describeStacks` call, then a search for the
output key among the stack outputs. -/
def resolveStackOutput (outputs : List (String × String)) (key : String) :
    Except String String :=
  match outputs.find? (fun e => e.1 == key) with
  | some e => Except.ok e.2
  | none => Except.error "Failed to resolve stack Output"

/-- `ServerlessS3Sync.getBucketName`, with a counter of external
`describeStacks` lookups threaded through. A literal `bucketName` resolves
with no lookup; a `bucketNameKey` issues one `resolveStackOutput` call — and
hence one external lookup — EVERY time `getBucketName` is called: the result
is not cached anywhere. -/
def getBucketName (outputs : List (String × String)) (s : SyncTarget)
    (calls : Nat) : Except String String × Nat :=
  if optTruthy s.bucketName then (Except.ok (s.bucketName.getD ""), calls)
  else if optTruthy s.bucketNameKey then
    (resolveStackOutput outputs (s.bucketNameKey.getD ""), calls + 1)
  else
    (Except.error
      "Unable to find bucketName. Please provide a value for bucketName or bucketNameKey",
      calls)

/-- The decile computed by the progress handlers:
`Math.round((progressAmount / progressTotal) * 10) * 10`. JavaScript
`Math.round x` is the floor of `x + 1/2` for nonnegative `x`, which on exact
rationals is the natural-number division below. -/
def decile (amount total : Nat) : Nat :=
  ((20 * amount + total) / (2 * total)) * 10

/-- One `progress` event of the uploader: nothing happens while
`progressTotal` is 0; otherwise the decile is emitted iff it strictly exceeds
the previously emitted value (`current > percent`). -/
def progressStep (total : Nat) (st : Nat × List Nat) (amount : Nat) :
    Nat × List Nat :=
  if total = 0 then st
  else
    if st.1 < decile amount total then
      (decile amount total, st.2 ++ [decile amount total])
    else st

/-- The sequence of emitted progress notifications over a run whose
`progressAmount` takes the given values in order. -/
def progressEmits (total : Nat) (amounts : List Nat) : List Nat :=
  (amounts.foldl (progressStep total) (0, [])).2

/-- The decile formula exactly as the specification words it (floor, no
rounding); stated only to compare the claim against the code. -/
def floorDecileSpec (amount total : Nat) : Nat :=
  amount * 10 / total * 10

/-- Witness for C5 at a concrete tag set: key "env" is kept at its existing
value while key "team" is merged in. -/
theorem c5_witness :
    hasKey [Tag.mk "env" "prod"] "env" = true ∧
      hasKey [Tag.mk "team" "web"] "env" = false ∧
      (lookupFirst (mergeTags [Tag.mk "env" "prod"] [Tag.mk "team" "web"]) "env" =
          lookupFirst [Tag.mk "env" "prod"] "env" ∧
        hasKey (mergeTags [Tag.mk "env" "prod"] [Tag.mk "team" "web"]) "env" = true) :=
  ⟨by decide, by decide,
    c5_mergeTags_preserves_untouched [Tag.mk "env" "prod"] [Tag.mk "team" "web"]
      "env" (by decide) (by decide)⟩

/-- C3 (amended): both phases share the per-rule glob matching, but the
metadata phase replaces instead of merging across rules; when exactly one
rule matches a local file, the metadata resync phase computes the same final
property bag and the same inclusion decision as the upload phase. -/
theorem c3_amended_single_match_agree (m : Matcher) (localDir : String)
    (env : Option String) (f : String) (rules : List Rule) (files : List String)
    (hnd : files.Nodup) (hmem : f ∈ files)
    (hcount : rules.countP (fun r => ruleMatches m localDir f r) = 1) :
    ((filesToSync m localDir env rules files).find? (fun e => e.1 == f)).map
        Prod.snd =
      getS3Params m localDir f env rules := by
  rw [filesToSync_find m localDir env rules files f hnd hmem]
  have hmap : ((metaParamsFor m localDir env f rules).map
      (fun b => (f, b))).map Prod.snd = metaParamsFor m localDir env f rules := by
    rcases metaParamsFor m localDir env f rules with _ | b <;> rfl
  rw [hmap]
  exact metaParamsFor_eq_getS3Params m localDir f env rules hcount

/-- Witness for the amended C3 at a concrete configuration: one of the two
rules matches the file, and both phases yield the same bag. -/
theorem c3_amended_witness :
    (["dir/a"] : List String).Nodup ∧
      "dir/a" ∈ (["dir/a"] : List String) ∧
      ([Rule.mk [("a", [Tag.mk "A" "1"])],
          Rule.mk [("b", [Tag.mk "B" "2"])]].countP
        (fun r => ruleMatches (fun a b => a == b) "dir" "dir/a" r)) = 1 ∧
      ((filesToSync (fun a b => a == b) "dir" none
            [Rule.mk [("a", [Tag.mk "A" "1"])], Rule.mk [("b", [Tag.mk "B" "2"])]]
            ["dir/a"]).find? (fun e => e.1 == "dir/a")).map Prod.snd =
        getS3Params (fun a b => a == b) "dir" "dir/a" none
          [Rule.mk [("a", [Tag.mk "A" "1"])], Rule.mk [("b", [Tag.mk "B" "2"])]] :=
  ⟨by decide, by decide, by decide,
    c3_amended_single_match_agree (fun a b => a == b) "dir" none "dir/a"
      [Rule.mk [("a", [Tag.mk "A" "1"])], Rule.mk [("b", [Tag.mk "B" "2"])]]
      ["dir/a"] (by decide) (by decide) (by decide)⟩

/-- C3 counterexample: two rules match the same file. The upload phase merges
both bags, the metadata phase keeps only the last matching rule's bag, so the
two phases disagree on the final property bag. -/
theorem c3_counterexample :
    ((filesToSync (fun a b => a == b) "dir" none
          [Rule.mk [("a", [Tag.mk "A" "1"])], Rule.mk [("a", [Tag.mk "B" "2"])]]
          ["dir/a"]).find? (fun e => e.1 == "dir/a")).map Prod.snd =
        some [Tag.mk "B" "2"] ∧
      getS3Params (fun a b => a == b) "dir" "dir/a" none
          [Rule.mk [("a", [Tag.mk "A" "1"])], Rule.mk [("a", [Tag.mk "B" "2"])]] =
        some [Tag.mk "A" "1", Tag.mk "B" "2"] ∧
      (some [Tag.mk "B" "2"] : Option Obj) ≠
        some [Tag.mk "A" "1", Tag.mk "B" "2"] := by
  refine ⟨?_, ?_, ?_⟩ <;> decide

/-- C6 (amended): bucket-name resolution is not cached. Resolving the same
target twice — as the upload, metadata and tag phases do — issues two
external lookups when the target uses an output-key identity, and none when
it carries a literal bucket name. -/
theorem c6_amended_resolution_not_cached (outputs : List (String × String))
    (s : SyncTarget) (calls : Nat) :
    (getBucketName outputs s (getBucketName outputs s calls).2).2 =
      (if optTruthy s.bucketName then calls
       else if optTruthy s.bucketNameKey then calls + 2
       else calls) := by
  by_cases h1 : optTruthy s.bucketName = true <;>
    by_cases h2 : optTruthy s.bucketNameKey = true <;>
      simp [getBucketName, h1, h2]

/-- C6 counterexample: a target identified by an output key, resolved twice
within one run, issues two external lookups — not at most one. -/
theorem c6_counterexample :
    (getBucketName [("K", "B")]
        (SyncTarget.mk none (some "K") (some "d") none [] none)
        (getBucketName [("K", "B")]
          (SyncTarget.mk none (some "K") (some "d") none [] none) 0).2).2 = 2 ∧
      ¬ (2 ≤ 1) := by
  refine ⟨?_, ?_⟩ <;> decide

theorem decile_le_100 (a t : Nat) (h : a ≤ t) (ht : 0 < t) :
    decile a t ≤ 100 := by
  unfold decile
  have h2t : 0 < 2 * t := by omega
  have hlt : (20 * a + t) / (2 * t) < 11 := by
    rw [Nat.div_lt_iff_lt_mul h2t]
    omega
  omega

theorem progress_aux (total : Nat) :
    ∀ (amounts : List Nat) (st : Nat × List Nat),
      (∀ a ∈ amounts, a ≤ total) →
      List.Chain' (· < ·) st.2 →
      (∀ x ∈ st.2, x ≤ st.1) →
      st.1 ≤ 100 →
      List.Chain' (· < ·) (amounts.foldl (progressStep total) st).2 ∧
        (∀ x ∈ (amounts.foldl (progressStep total) st).2,
          x ≤ (amounts.foldl (progressStep total) st).1) ∧
        (amounts.foldl (progressStep total) st).1 ≤ 100 ∧
        (∀ x ∈ (amounts.foldl (progressStep total) st).2,
          x ∈ st.2 ∨ ∃ a ∈ amounts, x = decile a total) := by
  intro amounts
  induction amounts with
  | nil =>
    intro st _ hc hall h100
    exact ⟨hc, hall, h100, fun x hx => Or.inl hx⟩
  | cons a rest ih =>
    intro st hle hc hall h100
    rw [List.foldl_cons]
    by_cases h0 : total = 0
    · have hstep : progressStep total st a = st := by
        unfold progressStep
        rw [if_pos h0]
      rw [hstep]
      obtain ⟨c1, c2, c3, c4⟩ := ih st (fun b hb => hle b (List.mem_cons_of_mem a hb))
        hc hall h100
      refine ⟨c1, c2, c3, fun x hx => ?_⟩
      rcases c4 x hx with hx2 | ⟨b, hb, he⟩
      · exact Or.inl hx2
      · exact Or.inr ⟨b, List.mem_cons_of_mem a hb, he⟩
    · have ht : 0 < total := Nat.pos_of_ne_zero h0
      by_cases hlt : st.1 < decile a total
      · have hstep : progressStep total st a =
            (decile a total, st.2 ++ [decile a total]) := by
          unfold progressStep
          rw [if_neg h0, if_pos hlt]
        rw [hstep]
        have hd100 : decile a total ≤ 100 :=
          decile_le_100 a total (hle a (List.mem_cons_self a rest)) ht
        have hc2 : List.Chain' (· < ·) (st.2 ++ [decile a total]) := by
          rw [List.chain'_append]
          refine ⟨hc, List.chain'_singleton _, ?_⟩
          intro x hx y hy
          have hx2 : x ∈ st.2 := List.mem_of_mem_getLast? hx
          have hy2 : y = decile a total := by
            simp at hy
            exact hy.symm
          rw [hy2]
          exact lt_of_le_of_lt (hall x hx2) hlt
        have hall2 : ∀ x ∈ st.2 ++ [decile a total], x ≤ decile a total := by
          intro x hx
          rcases List.mem_append.mp hx with hx | hx
          · exact le_of_lt (lt_of_le_of_lt (hall x hx) hlt)
          · rw [List.mem_singleton.mp hx]
        obtain ⟨c1, c2, c3, c4⟩ := ih (decile a total, st.2 ++ [decile a total])
          (fun b hb => hle b (List.mem_cons_of_mem a hb)) hc2 hall2 hd100
        refine ⟨c1, c2, c3, fun x hx => ?_⟩
        rcases c4 x hx with hx2 | ⟨b, hb, he⟩
        · rcases List.mem_append.mp hx2 with hx3 | hx3
          · exact Or.inl hx3
          · exact Or.inr ⟨a, List.mem_cons_self a rest, List.mem_singleton.mp hx3⟩
        · exact Or.inr ⟨b, List.mem_cons_of_mem a hb, he⟩
      · have hstep : progressStep total st a = st := by
          unfold progressStep
          rw [if_neg h0, if_neg hlt]
        rw [hstep]
        obtain ⟨c1, c2, c3, c4⟩ := ih st
          (fun b hb => hle b (List.mem_cons_of_mem a hb)) hc hall h100
        refine ⟨c1, c2, c3, fun x hx => ?_⟩
        rcases c4 x hx with hx2 | ⟨b, hb, he⟩
        · exact Or.inl hx2
        · exact Or.inr ⟨b, List.mem_cons_of_mem a hb, he⟩

/-- C7 (amended): when every reported progress amount is at most the total,
the emitted notifications form a strictly increasing sequence, never exceed
100, and each equals `Math.round(amount / total * 10) * 10` — the code
rounds, it does not floor — for some reported amount. -/
theorem c7_amended_progress (total : Nat) (amounts : List Nat)
    (h : ∀ a ∈ amounts, a ≤ total) :
    List.Chain' (· < ·) (progressEmits total amounts) ∧
      (∀ x ∈ progressEmits total amounts, x ≤ 100) ∧
      (∀ x ∈ progressEmits total amounts, ∃ a ∈ amounts, x = decile a total) := by
  obtain ⟨c1, c2, c3, c4⟩ := progress_aux total amounts (0, []) h (by simp)
    (by simp) (by omega)
  refine ⟨c1, fun x hx => le_trans (c2 x hx) c3, fun x hx => ?_⟩
  rcases c4 x hx with hx2 | h2
  · simp at hx2
  · exact h2

/-- Witness for the amended C7: a run with total 10 and amounts 3, 7, 10
emits 30, 70, 100. -/
theorem c7_amended_witness :
    (∀ a ∈ [3, 7, 10], a ≤ 10) ∧
      (List.Chain' (· < ·) (progressEmits 10 [3, 7, 10]) ∧
        (∀ x ∈ progressEmits 10 [3, 7, 10], x ≤ 100) ∧
        (∀ x ∈ progressEmits 10 [3, 7, 10], ∃ a ∈ [3, 7, 10], x = decile a 10)) :=
  ⟨by decide, c7_amended_progress 10 [3, 7, 10] (by decide)⟩

/-- C7 counterexample: with total 20 and one progress event at amount 11 the
code emits 60 (`Math.round(5.5) * 10`), while the floor formula of the claim
yields 50. -/
theorem c7_counterexample :
    progressEmits 20 [11] = [60] ∧ floorDecileSpec 11 20 = 50 ∧ (60 : Nat) ≠ 50 := by
  refine ⟨?_, ?_, ?_⟩ <;> decide

/-- C8: a target with `enabled: false` is skipped by the upload phase, but
the metadata resync phase still computes and issues copy operations for its
files, and the tag phase still issues its tag read-merge-write: the `enabled`
flag is checked only inside `sync()`. -/
theorem c8_disabled_target_not_skipped_everywhere :
    syncTargetStep
        (SyncTarget.mk (some "b") none (some "dir") (some false)
          [Rule.mk [("a", [Tag.mk "CacheControl" "no-cache"])]]
          (some [Tag.mk "k" "v"])) = Except.ok none ∧
      metaTargetStep (fun a b => a == b) none ["dir/a"]
        (SyncTarget.mk (some "b") none (some "dir") (some false)
          [Rule.mk [("a", [Tag.mk "CacheControl" "no-cache"])]]
          (some [Tag.mk "k" "v"])) =
        Except.ok [("dir/a", [Tag.mk "CacheControl" "no-cache"])] ∧
      tagsTargetStep
        (SyncTarget.mk (some "b") none (some "dir") (some false)
          [Rule.mk [("a", [Tag.mk "CacheControl" "no-cache"])]]
          (some [Tag.mk "k" "v"])) = Except.ok (some [Tag.mk "k" "v"]) := by
  refine ⟨?_, ?_, ?_⟩ <;> rfl

theorem syncFold_error (e : String) :
    ∀ ts : List SyncTarget, ts.foldl syncFoldStep (Except.error e) =
      Except.error e := by
  intro ts
  induction ts with
  | nil => rfl
  | cons t rest ih =>
    rw [List.foldl_cons]
    exact ih

theorem syncFold_append_ok :
    ∀ (pre : List SyncTarget) (acc : List (Option SyncTarget)),
      (∀ t ∈ pre, (syncTargetStep t).isOk = true) →
      ∃ acc2, ∀ rest : List SyncTarget,
        (pre ++ rest).foldl syncFoldStep (Except.ok acc) =
          rest.foldl syncFoldStep (Except.ok acc2) := by
  intro pre
  induction pre with
  | nil => intro acc _; exact ⟨acc, fun rest => rfl⟩
  | cons t pre2 ih =>
    intro acc hall
    rcases hst : syncTargetStep t with e | o
    · have := hall t (List.mem_cons_self t pre2)
      rw [hst] at this
      simp [Except.isOk, Except.toBool] at this
    · have hstep : syncFoldStep (Except.ok acc) t = Except.ok (acc ++ [o]) := by
        unfold syncFoldStep
        rw [hst]
      obtain ⟨acc2, hacc2⟩ := ih (acc ++ [o])
        (fun t2 ht2 => hall t2 (List.mem_cons_of_mem t ht2))
      refine ⟨acc2, fun rest => ?_⟩
      rw [List.cons_append, List.foldl_cons, hstep]
      exact hacc2 rest

/-- C9 (amended): in the upload phase a configuration error is fatal to the
whole phase, not just to its target: after any prefix of targets that do not
throw, an invalid target's synchronous throw aborts the `map`, so the targets
after it are never processed and the phase reports the error. (The metadata
and tags phases wrap each target in an async callback and do isolate the
failure.) -/
theorem c9_amended_sync_error_aborts_phase (pre post : List SyncTarget)
    (bad : SyncTarget)
    (h1 : ∀ t ∈ pre, (syncTargetStep t).isOk = true)
    (h2 : syncTargetStep bad = Except.error "Invalid custom.s3Sync") :
    syncPhase (pre ++ bad :: post) = Except.error "Invalid custom.s3Sync" := by
  obtain ⟨acc2, hacc2⟩ := syncFold_append_ok pre [] h1
  unfold syncPhase
  rw [hacc2 (bad :: post), List.foldl_cons]
  have hstep : syncFoldStep (Except.ok acc2) bad =
      Except.error "Invalid custom.s3Sync" := by
    unfold syncFoldStep
    rw [h2]
  rw [hstep]
  exact syncFold_error "Invalid custom.s3Sync" post

/-- Witness for the amended C9: a valid target, then an invalid one, then
another valid one — the phase errors out. -/
theorem c9_amended_witness :
    (∀ t ∈ [SyncTarget.mk (some "b") none (some "d") none [] none],
        (syncTargetStep t).isOk = true) ∧
      syncTargetStep (SyncTarget.mk none none (some "dir") none [] none) =
        Except.error "Invalid custom.s3Sync" ∧
      syncPhase ([SyncTarget.mk (some "b") none (some "d") none [] none] ++
          SyncTarget.mk none none (some "dir") none [] none ::
            [SyncTarget.mk (some "c") none (some "d2") none [] none]) =
        Except.error "Invalid custom.s3Sync" :=
  ⟨by decide, by rfl,
    c9_amended_sync_error_aborts_phase
      [SyncTarget.mk (some "b") none (some "d") none [] none]
      [SyncTarget.mk (some "c") none (some "d2") none [] none]
      (SyncTarget.mk none none (some "dir") none [] none)
      (by decide) (by rfl)⟩

/-- C9 counterexample: an invalid first target makes the whole upload phase
throw, so the valid second target's sync operations are not carried out —
although that target alone would sync fine. -/
theorem c9_counterexample :
    syncPhase
        [SyncTarget.mk none none (some "dir") none [] none,
          SyncTarget.mk (some "b") none (some "dir2") none [] none] =
      Except.error "Invalid custom.s3Sync" ∧
      syncPhase [SyncTarget.mk (some "b") none (some "dir2") none [] none] =
        Except.ok [some (SyncTarget.mk (some "b") none (some "dir2") none [] none)] := by
  refine ⟨?_, ?_⟩ <;> rfl

end S3Sync
